import Mathlib

/-!
Verification of the uttt-rs Ultimate Tic-Tac-Toe engine.

This file gives a shallow embedding of the board model in
src/uttt-rs/src/state.rs and of the MCTS engine in
src/uttt-rs/src/engine.rs, and proves the specified properties about it.

Modelling conventions:
* Rust u16 bit boards become plain naturals; only bits 0..8 are ever set
  by the code (moves have indices 0..=8), so no wrap-around can occur and
  no explicit mod 2^16 is needed.  Well-formedness (value < 512) is part
  of the stated invariants, mirroring the data-model invariant from the
  design document that bits 9..15 are always 0.
* The 9-element sub-board array becomes a total function from Fin 9.
  Reading the array at an index that Rust's get_unchecked would make
  undefined behaviour is modelled by returning the board unchanged;
  all theorems only ever apply it at indices 0..=8.
* f32 win-score accumulators become rationals: the program only ever adds
  the dyadic constants 1.0 and 0.5, which f32 addition computes exactly in
  the ranges exercised here.  The UCT score, which divides and multiplies
  by sqrt 2, is modelled over the reals.
* Panicking paths (expect / unwrap / unreachable) are modelled as none
  or as the empty list, as noted at each definition.
-/

namespace Uttt

/-! ## Data model, from src/uttt-rs/src/state.rs -/

inductive Player where
  | X
  | O
deriving DecidableEq

inductive HasWinner where
  | Yes
  | Tie
  | InProgress
deriving DecidableEq

inductive Winner where
  | X
  | O
  | Tie
  | InProgress
deriving DecidableEq

/-- A sub-board: one 9-bit occupancy mask per player (struct SubBoard). -/
structure SubBoard where
  x : ℕ
  o : ℕ
deriving DecidableEq

/-- Settlement masks over the 9 sub-board indices (struct WinBoard). -/
structure WinBoard where
  x : ℕ
  o : ℕ
  tie : ℕ
deriving DecidableEq

/-- A (major, minor) coordinate pair (struct Move).  The checked transition
validates the 0..=8 range itself, so the fields are unconstrained here. -/
structure Move where
  major : ℕ
  minor : ℕ
deriving DecidableEq

/-- The full game state (struct Board). -/
structure Board where
  sub_wins : WinBoard
  board : Fin 9 → SubBoard
  player_to_move : Player
  next_sub_board : ℕ
deriving DecidableEq

/-- Board::new / Default: empty board, X to move, free sub-board choice. -/
def Board.new : Board :=
  { sub_wins := ⟨0, 0, 0⟩, board := fun _ => ⟨0, 0⟩,
    player_to_move := Player.X, next_sub_board := 9 }

/-- The 8 three-in-a-row patterns (WIN_CONFIGURATIONS in BitBoard::has_winner). -/
def winConfigurations : List ℕ :=
  [0b111000000, 0b000111000, 0b000000111, 0b100100100,
   0b010010010, 0b001001001, 0b100010001, 0b001010100]

/-- BitBoard::has_winner: the for-loop with early return becomes List.any. -/
def hasWinner (bb : ℕ) : HasWinner :=
  if winConfigurations.any (fun c => bb &&& c == c) then HasWinner.Yes
  else if bb = 0b111111111 then HasWinner.Tie
  else HasWinner.InProgress

/-- BitBoard::advance_bitfield_state: set bit pos. -/
def advanceBitfieldState (bb pos : ℕ) : ℕ := bb ||| (1 <<< pos)

/-- Board::advance_state_unsafe.  Rust reads the sub-board with
get_unchecked (in-range indices are a safety precondition); an
out-of-range major index is modelled as leaving the board unchanged, and
every use in this file supplies major < 9. -/
def Board.advanceStateUnsafe (b : Board) (m : Move) : Board :=
  if h : m.major < 9 then
    let idx : Fin 9 := ⟨m.major, h⟩
    if b.player_to_move = Player.X then
      let sb := b.board idx
      let sb' : SubBoard := { sb with x := advanceBitfieldState sb.x m.minor }
      let sw :=
        if hasWinner sb'.x = HasWinner.Yes then
          { b.sub_wins with x := b.sub_wins.x ||| (1 <<< m.major) }
        else if sb'.x ||| sb'.o = 0b111111111 then
          { b.sub_wins with tie := b.sub_wins.tie ||| (1 <<< m.major) }
        else b.sub_wins
      let subWinsOr := sw.o ||| sw.x ||| sw.tie
      let nsb := if subWinsOr &&& (1 <<< m.minor) ≠ 0 then 9 else m.minor
      { sub_wins := sw, board := Function.update b.board idx sb',
        player_to_move := Player.O, next_sub_board := nsb }
    else
      let sb := b.board idx
      let sb' : SubBoard := { sb with o := advanceBitfieldState sb.o m.minor }
      let sw :=
        if hasWinner sb'.o = HasWinner.Yes then
          { b.sub_wins with o := b.sub_wins.o ||| (1 <<< m.major) }
        else if sb'.x ||| sb'.o = 0b111111111 then
          { b.sub_wins with tie := b.sub_wins.tie ||| (1 <<< m.major) }
        else b.sub_wins
      let subWinsOr := sw.o ||| sw.x ||| sw.tie
      let nsb := if subWinsOr &&& (1 <<< m.minor) ≠ 0 then 9 else m.minor
      { sub_wins := sw, board := Function.update b.board idx sb',
        player_to_move := Player.X, next_sub_board := nsb }
  else b

/-- Board::advance_state: the four validity checks, in source order, then
the unchecked transition.  None models the absent result. -/
def Board.advanceState (b : Board) (m : Move) : Option Board :=
  if h : m.major > 8 ∨ m.minor > 8 then none
  else
    if (b.board ⟨m.major, by omega⟩).x &&& (1 <<< m.minor) ≠ 0 ∨
        (b.board ⟨m.major, by omega⟩).o &&& (1 <<< m.minor) ≠ 0 then none
    else if b.next_sub_board ≠ 9 ∧ b.next_sub_board ≠ m.major then none
    else if b.sub_wins.x &&& (1 <<< m.major) ≠ 0 ∨
        b.sub_wins.o &&& (1 <<< m.major) ≠ 0 then none
    else some (b.advanceStateUnsafe m)

/-- Board::generate_moves (the functional content of
generate_moves_in_place).  The unreachable! arm for next_sub_board > 9
is modelled as the empty list; the invariants below exclude it. -/
def Board.generateMoves (b : Board) : List Move :=
  if h : b.next_sub_board < 9 then
    (List.range 9).filterMap fun i =>
      if ((b.board ⟨b.next_sub_board, h⟩).x ||| (b.board ⟨b.next_sub_board, h⟩).o)
          &&& (1 <<< i) = 0 then
        some ⟨b.next_sub_board, i⟩
      else none
  else if b.next_sub_board = 9 then
    (List.finRange 9).flatMap fun i =>
      if b.sub_wins.x &&& (1 <<< (i : ℕ)) = 0 ∧ b.sub_wins.o &&& (1 <<< (i : ℕ)) = 0 ∧
          b.sub_wins.tie &&& (1 <<< (i : ℕ)) = 0 then
        (List.range 9).filterMap fun j =>
          if ((b.board i).x ||| (b.board i).o) &&& (1 <<< j) = 0 then
            some ⟨(i : ℕ), j⟩
          else none
      else []
  else []

/-- Board::winner. -/
def Board.winner (b : Board) : Winner :=
  if hasWinner b.sub_wins.x = HasWinner.Yes then Winner.X
  else if hasWinner b.sub_wins.o = HasWinner.Yes then Winner.O
  else if b.sub_wins.x ||| b.sub_wins.o ||| b.sub_wins.tie = 0b111111111 then Winner.Tie
  else Winner.InProgress

/-! ## Reachability and invariants -/

/-- Bit i of mask w is set, in the idiom the source uses everywhere. -/
def bitSet (w i : ℕ) : Prop := w &&& (1 <<< i) ≠ 0

instance (w i : ℕ) : Decidable (bitSet w i) := by unfold bitSet; infer_instance

/-- Sub-board index i is settled: some WinBoard bit (X-won, O-won or tied)
is set for it. -/
def settledAt (b : Board) (i : ℕ) : Prop :=
  bitSet b.sub_wins.x i ∨ bitSet b.sub_wins.o i ∨ bitSet b.sub_wins.tie i

instance (b : Board) (i : ℕ) : Decidable (settledAt b i) := by
  unfold settledAt; infer_instance


/-- In every sub-board the two players' masks are disjoint. -/
def CellsDisjoint (b : Board) : Prop :=
  ∀ i : Fin 9, (b.board i).x &&& (b.board i).o = 0

/-- Sub-board occupancy masks only use bits 0..8. -/
def BoardsBounded (b : Board) : Prop :=
  ∀ i : Fin 9, (b.board i).x < 512 ∧ (b.board i).o < 512

/-- WinBoard masks only use bits 0..8. -/
def WinsBounded (b : Board) : Prop :=
  b.sub_wins.x < 512 ∧ b.sub_wins.o < 512 ∧ b.sub_wins.tie < 512

instance (b : Board) : Decidable (WinsBounded b) := by
  unfold WinsBounded; infer_instance

/-- Each sub-board index has at most one of the X-won / O-won / tied bits. -/
def AtMostOneOutcome (b : Board) : Prop :=
  ∀ i : Fin 9,
    ¬(bitSet b.sub_wins.x i.val ∧ bitSet b.sub_wins.o i.val) ∧
    ¬(bitSet b.sub_wins.x i.val ∧ bitSet b.sub_wins.tie i.val) ∧
    ¬(bitSet b.sub_wins.o i.val ∧ bitSet b.sub_wins.tie i.val)

/-- A tied sub-board is completely full. -/
def TieFull (b : Board) : Prop :=
  ∀ i : Fin 9, bitSet b.sub_wins.tie i.val → (b.board i).x ||| (b.board i).o = 511

/-- A completely full sub-board is settled. -/
def FullSettled (b : Board) : Prop :=
  ∀ i : Fin 9, (b.board i).x ||| (b.board i).o = 511 → settledAt b i.val

/-- next_sub_board is in 0..=9 and, when it forces a sub-board, that
sub-board is not yet settled. -/
def NsbGood (b : Board) : Prop :=
  b.next_sub_board ≤ 9 ∧ (b.next_sub_board < 9 → ¬settledAt b b.next_sub_board)

/-- All structural invariants of a board. -/
def Inv (b : Board) : Prop :=
  CellsDisjoint b ∧ BoardsBounded b ∧ WinsBounded b ∧ AtMostOneOutcome b ∧
    TieFull b ∧ FullSettled b ∧ NsbGood b

instance (b : Board) : Decidable (Inv b) := by
  unfold Inv CellsDisjoint BoardsBounded WinsBounded AtMostOneOutcome TieFull
    FullSettled NsbGood
  infer_instance

/-- One successful checked transition. -/
def StepB (b b' : Board) : Prop := ∃ m, b.advanceState m = some b'

/-- Boards reachable from the initial board by successful checked
transitions. -/
def Reachable (b : Board) : Prop := Relation.ReflTransGen StepB Board.new b

/-- Number of empty cells of one sub-board. -/
def emptyCount (sb : SubBoard) : ℕ :=
  ((List.range 9).filter fun j => (sb.x ||| sb.o) &&& (1 <<< j) == 0).length

/-- Total number of empty cells of the board; the termination measure for
rollouts. -/
def countEmpty (b : Board) : ℕ := ∑ i : Fin 9, emptyCount (b.board i)

/-! ## MCTS engine, from src/uttt-rs/src/engine.rs -/

/-- Node::rollout.  The thread-local RNG is abstracted into a choice
function giving the random index drawn at each step; the chosen move is
moves[choice step % moves.len()], matching SliceRandom::choose.  The fuel
argument bounds the while loop so the function is total; the theorems show
fuel 82 always suffices.  none models either fuel exhaustion or the
unwrap panic on an empty move list. -/
def rolloutAux (choice : ℕ → ℕ) : ℕ → ℕ → Board → Option Winner
  | 0, _, _ => none
  | fuel + 1, step, b =>
    if b.winner = Winner.InProgress then
      if b.generateMoves = [] then none
      else
        rolloutAux choice fuel (step + 1)
          (b.advanceStateUnsafe
            (b.generateMoves.getD (choice step % b.generateMoves.length) ⟨0, 0⟩))
    else some b.winner

/-- The statistics of one tree node that Node::uct and
Node::select_best_child_uct read: wins and visits. -/
structure ChildStat where
  wins : ℚ
  visits : ℕ
deriving DecidableEq

/-- Node::uct, exactly as written in the source: with c = 1.0 and
n_plus_c = visits + c, the score is wins / n_plus_c + c * (2 * sqrt 2) / n_plus_c.
Despite the name, ln(parent.visits) appears nowhere. -/
noncomputable def uct (c : ChildStat) : ℝ :=
  let cst : ℝ := 1
  let nPlusC : ℝ := (c.visits : ℝ) + cst
  (c.wins : ℝ) / nPlusC + cst * (2 * Real.sqrt 2) / nPlusC

/-- The loop of Node::select_best_child_uct: best child and best score so
far, replaced whenever a child scores strictly higher. -/
noncomputable def selectGo : List ChildStat → Option ChildStat → ℝ → Option ChildStat
  | [], best, _ => best
  | c :: cs, best, bestUct =>
    if uct c > bestUct then selectGo cs (some c) (uct c)
    else selectGo cs best bestUct

/-- Node::select_best_child_uct: fold over the expanded children starting
from (None, 0.0). -/
noncomputable def selectBestChildUct (l : List ChildStat) : Option ChildStat :=
  selectGo l none 0

/-- The UCB1 score exactly as the specification document words it:
wins/visits + sqrt 2 * sqrt (ln selfVisits / visits).  Used only to compare
the program against the specification. -/
noncomputable def uctSpecFormula (selfVisits : ℕ) (c : ChildStat) : ℝ :=
  (c.wins : ℝ) / (c.visits : ℝ) +
    Real.sqrt 2 * Real.sqrt (Real.log (selfVisits : ℝ) / (c.visits : ℝ))

/-- Child selection exactly as the specification document words it: score
by uctSpecFormula, pick the strictly greatest score, first-seen wins ties,
none when there are no children.  Used only to compare the program against
the specification. -/
noncomputable def selectSpec (selfVisits : ℕ) : List ChildStat → Option ChildStat
  | [] => none
  | c :: cs =>
    match selectSpec selfVisits cs with
    | none => some c
    | some d =>
      if uctSpecFormula selfVisits d > uctSpecFormula selfVisits c then some d
      else some c

/-- The per-node statistics Node::back_propagate touches, together with the
side to move of the node's board. -/
structure NodeStat where
  playerToMove : Player
  wins : ℚ
  visits : ℕ
deriving DecidableEq

/-- The win-score increment the specification prescribes for a node whose
side to move is p when the rollout outcome is w. -/
def winIncrement (p : Player) (w : Winner) : ℚ :=
  if (p = Player.X ∧ w = Winner.O) ∨ (p = Player.O ∧ w = Winner.X) then 1
  else if w = Winner.Tie then 1 / 2
  else 0

/-- The parent-walk loop of Node::back_propagate.  o is the node the walk
started from (self in the source).  For each ancestor p the source tests
p's side to move but then adds the increment to self.wins — not to
p.wins — while p only gets its visit counter bumped.  The returned pair is
(final origin statistics, updated ancestor list). -/
def backPropGo (w : Winner) : List NodeStat → NodeStat → NodeStat × List NodeStat
  | [], o => (o, [])
  | p :: ps, o =>
    let o' :=
      if (p.playerToMove = Player.X ∧ w = Winner.O) ∨
          (p.playerToMove = Player.O ∧ w = Winner.X) then
        { o with wins := o.wins + 1 }
      else if w = Winner.Tie then { o with wins := o.wins + 1 / 2 }
      else o
    let rest := backPropGo w ps o'
    (rest.1, { p with visits := p.visits + 1 } :: rest.2)

/-- Node::back_propagate, applied to the path from the node the rollout
started at (head) up to the root (last element). -/
def backPropagate (w : Winner) (path : List NodeStat) : List NodeStat :=
  match path with
  | [] => []
  | origin :: ancestors =>
    let o1 := { origin with visits := origin.visits + 1 }
    let o2 :=
      if (o1.playerToMove = Player.X ∧ w = Winner.O) ∨
          (o1.playerToMove = Player.O ∧ w = Winner.X) then
        { o1 with wins := o1.wins + 1 }
      else if w = Winner.Tie then { o1 with wins := o1.wins + 1 / 2 }
      else o1
    let rest := backPropGo w ancestors o2
    rest.1 :: rest.2

/-- Back-propagation as the specification states it (section 4.2 of the
design document): every node on the path, origin included, gets visits + 1
and its own win-score increased by its own increment, exactly once. -/
def backPropagateSpec (w : Winner) (path : List NodeStat) : List NodeStat :=
  path.map fun nd =>
    { nd with visits := nd.visits + 1, wins := nd.wins + winIncrement nd.playerToMove w }

/-- The iteration counting of MctsEngine::run_search, one Bool per
completed loop pass: true when the frontier node returned by traverse()
was fully expanded (the branch that rolls out, back-propagates and then
continues), false for the expand branch.  The source increments i only in
the second branch; the continue in the first skips the increment. -/
def runSearchIterCount (passes : List Bool) : ℕ :=
  passes.foldl (fun i fullyExpanded => if fullyExpanded then i else i + 1) 0

/-- The child data MctsEngine::best_move reads. -/
structure EngChild where
  previousMove : Option Move
  visits : ℕ
deriving DecidableEq

/-- One fold step of Iterator::max_by_key on visit counts: Rust keeps the
last of equally-maximal elements, so a tie replaces the current best. -/
def maxStep (acc : Option EngChild) (c : EngChild) : Option EngChild :=
  match acc with
  | none => some c
  | some a => if a.visits ≤ c.visits then some c else some a

/-- children.expanded.iter().max_by_key(visits). -/
def maxByVisits (l : List EngChild) : Option EngChild := l.foldl maxStep none

/-- The root node data MctsEngine::best_move reads. -/
structure RootNode where
  expanded : List EngChild

/-- MctsEngine::best_move.  The argument is the engine's root field; none
models the uninitialized engine.  Result none models each of the three
panics: expect on a missing root, expect on an empty expanded list, and
unwrap on a missing previous move. -/
def bestMove (root : Option RootNode) : Option Move :=
  root.bind fun r => (maxByVisits r.expanded).bind fun c => c.previousMove

/-! ## Concrete inputs used by counterexamples and witnesses -/

/-- A board whose sub-board 0 is marked tied in the WinBoard while its
cells are all empty.  It violates the tie-implies-full invariant, so no
play reaches it, but the checked advance_state is claimed to reject moves
into any settled sub-board of any board. -/
def tieMarkedBoard : Board :=
  { sub_wins := ⟨0, 0, 1⟩, board := fun _ => ⟨0, 0⟩,
    player_to_move := Player.X, next_sub_board := 9 }

/-- The mask v matches one of the 8 standard three-in-a-row patterns. -/
def lineWin (v : ℕ) : Prop := ∃ c ∈ winConfigurations, v &&& c = c

instance (v : ℕ) : Decidable (lineWin v) := by unfold lineWin; infer_instance

/-- Total lookup of a sub-board by its plain-ℕ index, for stating the
validation conditions of advance_state without a range proof; out-of-range
indices give the empty sub-board and are only reachable when the
out-of-range condition already holds. -/
def subAt (b : Board) (i : ℕ) : SubBoard :=
  if h : i < 9 then b.board ⟨i, h⟩ else ⟨0, 0⟩

/-- First advance_state check: an index outside 0..=8. -/
def outOfRange (m : Move) : Prop := m.major > 8 ∨ m.minor > 8

/-- Second advance_state check: the target cell is taken by either player. -/
def cellOccupied (b : Board) (m : Move) : Prop :=
  (subAt b m.major).x &&& (1 <<< m.minor) ≠ 0 ∨
    (subAt b m.major).o &&& (1 <<< m.minor) ≠ 0

/-- Third advance_state check: a forced sub-board other than the target. -/
def wrongSubBoard (b : Board) (m : Move) : Prop :=
  b.next_sub_board ≠ 9 ∧ b.next_sub_board ≠ m.major

/-- Fourth advance_state check: the target sub-board was already won by X
or by O.  The tied bit is not consulted. -/
def subBoardWon (b : Board) (m : Move) : Prop :=
  b.sub_wins.x &&& (1 <<< m.major) ≠ 0 ∨ b.sub_wins.o &&& (1 <<< m.major) ≠ 0

instance (m : Move) : Decidable (outOfRange m) := by unfold outOfRange; infer_instance

instance (b : Board) (m : Move) : Decidable (cellOccupied b m) := by
  unfold cellOccupied; infer_instance

instance (b : Board) (m : Move) : Decidable (wrongSubBoard b m) := by
  unfold wrongSubBoard; infer_instance

instance (b : Board) (m : Move) : Decidable (subBoardWon b m) := by
  unfold subBoardWon; infer_instance

/-! ## Bit-level helper lemmas -/

theorem shiftLeft_one_eq (i : ℕ) : (1 : ℕ) <<< i = 2 ^ i := by
  simp [Nat.shiftLeft_eq]

theorem bitSet_iff_testBit (w i : ℕ) : bitSet w i ↔ w.testBit i = true := by
  unfold bitSet
  rw [shiftLeft_one_eq, Nat.and_two_pow]
  cases h : w.testBit i <;> simp [h]

theorem land_shift_eq_zero_iff (w i : ℕ) : w &&& (1 <<< i) = 0 ↔ w.testBit i = false := by
  rw [shiftLeft_one_eq, Nat.and_two_pow]
  cases h : w.testBit i <;> simp [h]

theorem not_bitSet_iff (w i : ℕ) : ¬bitSet w i ↔ w.testBit i = false := by
  rw [bitSet_iff_testBit]
  cases h : w.testBit i <;> simp [h]

theorem bitSet_lor (a b i : ℕ) : bitSet (a ||| b) i ↔ bitSet a i ∨ bitSet b i := by
  simp [bitSet_iff_testBit, Nat.testBit_lor]

theorem bitSet_shift (j i : ℕ) : bitSet (1 <<< j) i ↔ i = j := by
  rw [bitSet_iff_testBit, shiftLeft_one_eq]
  constructor
  · intro h
    by_contra hne
    rw [Nat.testBit_two_pow_of_ne (fun hj => hne hj.symm)] at h
    exact Bool.false_ne_true h
  · rintro rfl
    exact Nat.testBit_two_pow_self

theorem land_eq_zero_iff_forall (x o : ℕ) :
    x &&& o = 0 ↔ ∀ i, ¬(x.testBit i = true ∧ o.testBit i = true) := by
  constructor
  · intro h i hio
    have ht : (x &&& o).testBit i = true := by
      rw [Nat.testBit_land, hio.1, hio.2]
      rfl
    rw [h, Nat.zero_testBit] at ht
    exact Bool.false_ne_true ht
  · intro h
    apply Nat.eq_of_testBit_eq
    intro i
    rw [Nat.testBit_land, Nat.zero_testBit]
    cases hx : x.testBit i <;> cases ho : o.testBit i <;> simp_all

theorem lor_lt_512 {a b : ℕ} (ha : a < 512) (hb : b < 512) : a ||| b < 512 := by
  have h9 : (512 : ℕ) = 2 ^ 9 := by norm_num
  rw [h9] at ha hb ⊢
  exact Nat.or_lt_two_pow ha hb

theorem shift_lt_512 {j : ℕ} (hj : j < 9) : (1 : ℕ) <<< j < 512 := by
  rw [shiftLeft_one_eq]
  calc 2 ^ j ≤ 2 ^ 8 := Nat.pow_le_pow_right (by norm_num) (by omega)
  _ < 512 := by norm_num

set_option maxRecDepth 4096 in
/-- Any 9-bit value other than 511 has a free bit below 9. -/
theorem exists_free_bit : ∀ v < 512, v ≠ 511 → ∃ j < 9, v &&& (1 <<< j) = 0 := by
  decide

set_option maxRecDepth 4096 in
/-- A 9-bit value has all of bits 0..8 set exactly when it is 511. -/
theorem covers_iff_511 : ∀ v < 512, ((∀ i < 9, v &&& (1 <<< i) ≠ 0) ↔ v = 511) := by
  decide

theorem full_testBit {i : ℕ} (hi : i < 9) : (511 : ℕ).testBit i = true := by
  interval_cases i <;> decide

/-! ## Characterization of the checked transition -/

theorem subAt_eq (b : Board) {i : ℕ} (h : i < 9) : subAt b i = b.board ⟨i, h⟩ := by
  simp [subAt, h]

theorem cellOccupied_iff (b : Board) {m : Move} (h : m.major < 9) :
    cellOccupied b m ↔
      ((b.board ⟨m.major, h⟩).x &&& (1 <<< m.minor) ≠ 0 ∨
        (b.board ⟨m.major, h⟩).o &&& (1 <<< m.minor) ≠ 0) := by
  unfold cellOccupied
  rw [subAt_eq b h]

theorem advanceState_eq_none_iff (b : Board) (m : Move) :
    b.advanceState m = none ↔
      outOfRange m ∨ cellOccupied b m ∨ wrongSubBoard b m ∨ subBoardWon b m := by
  unfold Board.advanceState
  split_ifs with h1 h2 h3 h4
  · exact iff_of_true rfl (Or.inl h1)
  · refine iff_of_true rfl (Or.inr (Or.inl ?_))
    rw [cellOccupied_iff b (show m.major < 9 by omega)]
    exact h2
  · exact iff_of_true rfl (Or.inr (Or.inr (Or.inl h3)))
  · exact iff_of_true rfl (Or.inr (Or.inr (Or.inr h4)))
  · refine iff_of_false (by simp) ?_
    push_neg
    refine ⟨h1, ?_, h3, h4⟩
    rw [cellOccupied_iff b (show m.major < 9 by omega)]
    exact h2

theorem advanceState_eq_some (b : Board) (m : Move) (h1 : ¬outOfRange m)
    (h2 : ¬cellOccupied b m) (h3 : ¬wrongSubBoard b m) (h4 : ¬subBoardWon b m) :
    b.advanceState m = some (b.advanceStateUnsafe m) := by
  unfold outOfRange at h1
  have hmaj : m.major < 9 := by omega
  rw [cellOccupied_iff b hmaj] at h2
  unfold wrongSubBoard at h3
  unfold subBoardWon at h4
  unfold Board.advanceState
  rw [dif_neg h1, if_neg h2, if_neg h3, if_neg h4]

theorem advanceState_some_elim {b : Board} {m : Move} {b' : Board}
    (h : b.advanceState m = some b') :
    ¬outOfRange m ∧ ¬cellOccupied b m ∧ ¬wrongSubBoard b m ∧ ¬subBoardWon b m ∧
      b' = b.advanceStateUnsafe m := by
  have hnone : b.advanceState m ≠ none := by rw [h]; simp
  rw [Ne, advanceState_eq_none_iff] at hnone
  push_neg at hnone
  obtain ⟨h1, h2, h3, h4⟩ := hnone
  have := advanceState_eq_some b m h1 h2 h3 h4
  rw [h] at this
  exact ⟨h1, h2, h3, h4, Option.some_injective _ this⟩

/-! ## Invariant preservation -/

theorem land_lor_single {x o j : ℕ} (hxo : x &&& o = 0) (ho : o.testBit j = false) :
    (x ||| (1 <<< j)) &&& o = 0 := by
  rw [land_eq_zero_iff_forall] at hxo ⊢
  intro i hi
  obtain ⟨hxi, hoi⟩ := hi
  rw [Nat.testBit_lor] at hxi
  simp only [Bool.or_eq_true] at hxi
  rcases hxi with hx | hs
  · exact hxo i ⟨hx, hoi⟩
  · have hij : i = j := (bitSet_shift j i).1 ((bitSet_iff_testBit _ _).2 hs)
    subst hij
    rw [ho] at hoi
    exact Bool.false_ne_true hoi

theorem land_lor_single_right {x o j : ℕ} (hxo : x &&& o = 0) (hx : x.testBit j = false) :
    x &&& (o ||| (1 <<< j)) = 0 := by
  rw [land_eq_zero_iff_forall] at hxo ⊢
  intro i hi
  obtain ⟨hxi, hoi⟩ := hi
  rw [Nat.testBit_lor] at hoi
  simp only [Bool.or_eq_true] at hoi
  rcases hoi with ho | hs
  · exact hxo i ⟨hxi, ho⟩
  · have hij : i = j := (bitSet_shift j i).1 ((bitSet_iff_testBit _ _).2 hs)
    subst hij
    rw [hx] at hxi
    exact Bool.false_ne_true hxi

theorem testBit_lor_shift (w j i : ℕ) :
    (w ||| (1 <<< j)).testBit i = (w.testBit i || decide (i = j)) := by
  rw [Nat.testBit_lor, shiftLeft_one_eq]
  by_cases h : i = j
  · subst h
    simp [Nat.testBit_two_pow_self]
  · rw [Nat.testBit_two_pow_of_ne fun hj => h hj.symm]
    simp [h]

theorem settledAt_iff_testBit (b : Board) (i : ℕ) :
    settledAt b i ↔
      (b.sub_wins.x.testBit i = true ∨ b.sub_wins.o.testBit i = true ∨
        b.sub_wins.tie.testBit i = true) := by
  unfold settledAt
  rw [bitSet_iff_testBit, bitSet_iff_testBit, bitSet_iff_testBit]

/-- The unchecked transition preserves all invariants whenever the four
checked preconditions hold. -/
theorem inv_unsafe (b : Board) (m : Move) (hInv : Inv b) (hmaj : m.major < 9)
    (hmin : m.minor < 9)
    (hcx : (b.board ⟨m.major, hmaj⟩).x.testBit m.minor = false)
    (hco : (b.board ⟨m.major, hmaj⟩).o.testBit m.minor = false)
    (hwx : b.sub_wins.x.testBit m.major = false)
    (hwo : b.sub_wins.o.testBit m.major = false) :
    Inv (b.advanceStateUnsafe m) := by
  obtain ⟨hCD, hBB, hWB, hAMO, hTF, hFS, _⟩ := hInv
  have hAMO' : ∀ i : Fin 9,
      ¬(b.sub_wins.x.testBit i.val = true ∧ b.sub_wins.o.testBit i.val = true) ∧
      ¬(b.sub_wins.x.testBit i.val = true ∧ b.sub_wins.tie.testBit i.val = true) ∧
      ¬(b.sub_wins.o.testBit i.val = true ∧ b.sub_wins.tie.testBit i.val = true) := by
    intro i
    have h := hAMO i
    simpa only [bitSet_iff_testBit] using h
  have hwt : b.sub_wins.tie.testBit m.major = false := by
    cases h : b.sub_wins.tie.testBit m.major
    · rfl
    · exfalso
      have ht : bitSet b.sub_wins.tie m.major := (bitSet_iff_testBit _ _).2 h
      have hfull := hTF ⟨m.major, hmaj⟩ ht
      have hbit : ((b.board ⟨m.major, hmaj⟩).x ||| (b.board ⟨m.major, hmaj⟩).o).testBit
          m.minor = true := by
        rw [hfull]
        exact full_testBit hmin
      rw [Nat.testBit_lor, hcx, hco] at hbit
      simp at hbit
  by_cases hp : b.player_to_move = Player.X
  · -- X to move
    unfold Board.advanceStateUnsafe
    rw [dif_pos hmaj, if_pos hp]
    simp only [advanceBitfieldState]
    by_cases hw :
        hasWinner ((b.board ⟨m.major, hmaj⟩).x ||| 1 <<< m.minor) = HasWinner.Yes
    · rw [if_pos hw]
      refine ⟨?_, ?_, ?_, ?_, ?_, ?_, ?_⟩
      · -- CellsDisjoint
        intro i
        simp only [Function.update_apply]
        by_cases hi : i = (⟨m.major, hmaj⟩ : Fin 9)
        · simp only [hi, if_pos rfl]
          exact land_lor_single (hCD _) hco
        · simp only [if_neg hi]
          exact hCD i
      · -- BoardsBounded
        intro i
        simp only [Function.update_apply]
        by_cases hi : i = (⟨m.major, hmaj⟩ : Fin 9)
        · simp only [hi, if_pos rfl]
          exact ⟨lor_lt_512 (hBB _).1 (shift_lt_512 hmin), (hBB _).2⟩
        · simp only [if_neg hi]
          exact hBB i
      · -- WinsBounded
        exact ⟨lor_lt_512 hWB.1 (shift_lt_512 hmaj), hWB.2.1, hWB.2.2⟩
      · -- AtMostOneOutcome
        intro i
        simp only [bitSet_iff_testBit, testBit_lor_shift]
        by_cases hi : (i : ℕ) = m.major
        · simp [hi, hwo, hwt]
        · simp only [hi, decide_False, Bool.or_false]
          exact hAMO' i
      · -- TieFull
        intro i htie
        simp only [bitSet_iff_testBit] at htie
        simp only [Function.update_apply]
        by_cases hi : i = (⟨m.major, hmaj⟩ : Fin 9)
        · exfalso
          have : (i : ℕ) = m.major := by rw [hi]
          rw [this, hwt] at htie
          exact Bool.false_ne_true htie
        · simp only [if_neg hi]
          exact hTF i ((bitSet_iff_testBit _ _).2 htie)
      · -- FullSettled
        intro i hfull
        rw [settledAt_iff_testBit]
        simp only [Function.update_apply] at hfull
        simp only [testBit_lor_shift]
        by_cases hi : i = (⟨m.major, hmaj⟩ : Fin 9)
        · have hv : (i : ℕ) = m.major := by rw [hi]
          simp [hv]
        · rw [if_neg hi] at hfull
          have hold := hFS i hfull
          rw [settledAt_iff_testBit] at hold
          rcases hold with h | h | h
          · exact Or.inl (by simp [h])
          · exact Or.inr (Or.inl h)
          · exact Or.inr (Or.inr h)
      · -- NsbGood
        by_cases hc :
            ((b.sub_wins.o ||| (b.sub_wins.x ||| 1 <<< m.major)) ||| b.sub_wins.tie)
              &&& 1 <<< m.minor ≠ 0
        · rw [if_pos hc]
          exact ⟨show (9 : ℕ) ≤ 9 by omega, fun h => absurd (show (9 : ℕ) < 9 from h) (by omega)⟩
        · rw [if_neg hc]
          refine ⟨show m.minor ≤ 9 by omega, fun _ => ?_⟩
          rw [not_ne_iff, land_shift_eq_zero_iff] at hc
          rw [settledAt_iff_testBit]
          simp only [Nat.testBit_lor, Bool.or_eq_false_iff] at hc
          simp [hc.1.1, hc.1.2.1, hc.1.2.2, hc.2]
    · rw [if_neg hw]
      by_cases hf :
          ((b.board ⟨m.major, hmaj⟩).x ||| 1 <<< m.minor) ||| (b.board ⟨m.major, hmaj⟩).o
            = 511
      · rw [if_pos hf]
        refine ⟨?_, ?_, ?_, ?_, ?_, ?_, ?_⟩
        · intro i
          simp only [Function.update_apply]
          by_cases hi : i = (⟨m.major, hmaj⟩ : Fin 9)
          · simp only [hi, if_pos rfl]
            exact land_lor_single (hCD _) hco
          · simp only [if_neg hi]
            exact hCD i
        · intro i
          simp only [Function.update_apply]
          by_cases hi : i = (⟨m.major, hmaj⟩ : Fin 9)
          · simp only [hi, if_pos rfl]
            exact ⟨lor_lt_512 (hBB _).1 (shift_lt_512 hmin), (hBB _).2⟩
          · simp only [if_neg hi]
            exact hBB i
        · exact ⟨hWB.1, hWB.2.1, lor_lt_512 hWB.2.2 (shift_lt_512 hmaj)⟩
        · intro i
          simp only [bitSet_iff_testBit, testBit_lor_shift]
          by_cases hi : (i : ℕ) = m.major
          · simp [hi, hwx, hwo]
          · simp only [hi, decide_False, Bool.or_false]
            exact hAMO' i
        · intro i htie
          simp only [bitSet_iff_testBit, testBit_lor_shift] at htie
          simp only [Function.update_apply]
          by_cases hi : i = (⟨m.major, hmaj⟩ : Fin 9)
          · simp only [hi, if_pos rfl]
            exact hf
          · have hv : (i : ℕ) ≠ m.major := fun h => hi (Fin.ext h)
            simp only [hv, decide_False, Bool.or_false] at htie
            simp only [if_neg hi]
            exact hTF i ((bitSet_iff_testBit _ _).2 htie)
        · intro i hfull
          rw [settledAt_iff_testBit]
          simp only [Function.update_apply] at hfull
          simp only [testBit_lor_shift]
          by_cases hi : i = (⟨m.major, hmaj⟩ : Fin 9)
          · have hv : (i : ℕ) = m.major := by rw [hi]
            simp [hv]
          · rw [if_neg hi] at hfull
            have hold := hFS i hfull
            rw [settledAt_iff_testBit] at hold
            rcases hold with h | h | h
            · exact Or.inl h
            · exact Or.inr (Or.inl h)
            · exact Or.inr (Or.inr (by simp [h]))
        · by_cases hc :
              ((b.sub_wins.o ||| b.sub_wins.x) ||| (b.sub_wins.tie ||| 1 <<< m.major))
                &&& 1 <<< m.minor ≠ 0
          · rw [if_pos hc]
            exact ⟨show (9 : ℕ) ≤ 9 by omega, fun h => absurd (show (9 : ℕ) < 9 from h) (by omega)⟩
          · rw [if_neg hc]
            refine ⟨show m.minor ≤ 9 by omega, fun _ => ?_⟩
            rw [not_ne_iff, land_shift_eq_zero_iff] at hc
            rw [settledAt_iff_testBit]
            simp only [Nat.testBit_lor, Bool.or_eq_false_iff] at hc
            simp [hc.1.1, hc.1.2, hc.2.1, hc.2.2]
      · rw [if_neg hf]
        refine ⟨?_, ?_, ?_, ?_, ?_, ?_, ?_⟩
        · intro i
          simp only [Function.update_apply]
          by_cases hi : i = (⟨m.major, hmaj⟩ : Fin 9)
          · simp only [hi, if_pos rfl]
            exact land_lor_single (hCD _) hco
          · simp only [if_neg hi]
            exact hCD i
        · intro i
          simp only [Function.update_apply]
          by_cases hi : i = (⟨m.major, hmaj⟩ : Fin 9)
          · simp only [hi, if_pos rfl]
            exact ⟨lor_lt_512 (hBB _).1 (shift_lt_512 hmin), (hBB _).2⟩
          · simp only [if_neg hi]
            exact hBB i
        · exact hWB
        · exact hAMO
        · intro i htie
          simp only [Function.update_apply]
          by_cases hi : i = (⟨m.major, hmaj⟩ : Fin 9)
          · exfalso
            have hv : (i : ℕ) = m.major := by rw [hi]
            simp only [bitSet_iff_testBit, hv, hwt] at htie
            exact Bool.false_ne_true htie
          · simp only [if_neg hi]
            exact hTF i htie
        · intro i hfull
          simp only [Function.update_apply] at hfull
          by_cases hi : i = (⟨m.major, hmaj⟩ : Fin 9)
          · rw [if_pos hi] at hfull
            exact absurd hfull hf
          · rw [if_neg hi] at hfull
            exact hFS i hfull
        · by_cases hc :
              ((b.sub_wins.o ||| b.sub_wins.x) ||| b.sub_wins.tie) &&& 1 <<< m.minor ≠ 0
          · rw [if_pos hc]
            exact ⟨show (9 : ℕ) ≤ 9 by omega, fun h => absurd (show (9 : ℕ) < 9 from h) (by omega)⟩
          · rw [if_neg hc]
            refine ⟨show m.minor ≤ 9 by omega, fun _ => ?_⟩
            rw [not_ne_iff, land_shift_eq_zero_iff] at hc
            rw [settledAt_iff_testBit]
            simp only [Nat.testBit_lor, Bool.or_eq_false_iff] at hc
            simp [hc.1.1, hc.1.2, hc.2]
  · -- O to move
    have hpO : b.player_to_move = Player.O := by
      cases hq : b.player_to_move
      · exact absurd hq hp
      · rfl
    unfold Board.advanceStateUnsafe
    rw [dif_pos hmaj, if_neg hp]
    simp only [advanceBitfieldState]
    by_cases hw :
        hasWinner ((b.board ⟨m.major, hmaj⟩).o ||| 1 <<< m.minor) = HasWinner.Yes
    · rw [if_pos hw]
      refine ⟨?_, ?_, ?_, ?_, ?_, ?_, ?_⟩
      · intro i
        simp only [Function.update_apply]
        by_cases hi : i = (⟨m.major, hmaj⟩ : Fin 9)
        · simp only [hi, if_pos rfl]
          exact land_lor_single_right (hCD _) hcx
        · simp only [if_neg hi]
          exact hCD i
      · intro i
        simp only [Function.update_apply]
        by_cases hi : i = (⟨m.major, hmaj⟩ : Fin 9)
        · simp only [hi, if_pos rfl]
          exact ⟨(hBB _).1, lor_lt_512 (hBB _).2 (shift_lt_512 hmin)⟩
        · simp only [if_neg hi]
          exact hBB i
      · exact ⟨hWB.1, lor_lt_512 hWB.2.1 (shift_lt_512 hmaj), hWB.2.2⟩
      · intro i
        simp only [bitSet_iff_testBit, testBit_lor_shift]
        by_cases hi : (i : ℕ) = m.major
        · simp [hi, hwx, hwt]
        · simp only [hi, decide_False, Bool.or_false]
          exact hAMO' i
      · intro i htie
        simp only [bitSet_iff_testBit] at htie
        simp only [Function.update_apply]
        by_cases hi : i = (⟨m.major, hmaj⟩ : Fin 9)
        · exfalso
          have hv : (i : ℕ) = m.major := by rw [hi]
          rw [hv, hwt] at htie
          exact Bool.false_ne_true htie
        · simp only [if_neg hi]
          exact hTF i ((bitSet_iff_testBit _ _).2 htie)
      · intro i hfull
        rw [settledAt_iff_testBit]
        simp only [Function.update_apply] at hfull
        simp only [testBit_lor_shift]
        by_cases hi : i = (⟨m.major, hmaj⟩ : Fin 9)
        · have hv : (i : ℕ) = m.major := by rw [hi]
          simp [hv]
        · rw [if_neg hi] at hfull
          have hold := hFS i hfull
          rw [settledAt_iff_testBit] at hold
          rcases hold with h | h | h
          · exact Or.inl h
          · exact Or.inr (Or.inl (by simp [h]))
          · exact Or.inr (Or.inr h)
      · by_cases hc :
            (((b.sub_wins.o ||| 1 <<< m.major) ||| b.sub_wins.x) ||| b.sub_wins.tie)
              &&& 1 <<< m.minor ≠ 0
        · rw [if_pos hc]
          exact ⟨show (9 : ℕ) ≤ 9 by omega, fun h => absurd (show (9 : ℕ) < 9 from h) (by omega)⟩
        · rw [if_neg hc]
          refine ⟨show m.minor ≤ 9 by omega, fun _ => ?_⟩
          rw [not_ne_iff, land_shift_eq_zero_iff] at hc
          rw [settledAt_iff_testBit]
          simp only [Nat.testBit_lor, Bool.or_eq_false_iff] at hc
          simp [hc.1.1.1, hc.1.1.2, hc.1.2, hc.2]
    · rw [if_neg hw]
      by_cases hf :
          (b.board ⟨m.major, hmaj⟩).x ||| ((b.board ⟨m.major, hmaj⟩).o ||| 1 <<< m.minor)
            = 511
      · rw [if_pos hf]
        refine ⟨?_, ?_, ?_, ?_, ?_, ?_, ?_⟩
        · intro i
          simp only [Function.update_apply]
          by_cases hi : i = (⟨m.major, hmaj⟩ : Fin 9)
          · simp only [hi, if_pos rfl]
            exact land_lor_single_right (hCD _) hcx
          · simp only [if_neg hi]
            exact hCD i
        · intro i
          simp only [Function.update_apply]
          by_cases hi : i = (⟨m.major, hmaj⟩ : Fin 9)
          · simp only [hi, if_pos rfl]
            exact ⟨(hBB _).1, lor_lt_512 (hBB _).2 (shift_lt_512 hmin)⟩
          · simp only [if_neg hi]
            exact hBB i
        · exact ⟨hWB.1, hWB.2.1, lor_lt_512 hWB.2.2 (shift_lt_512 hmaj)⟩
        · intro i
          simp only [bitSet_iff_testBit, testBit_lor_shift]
          by_cases hi : (i : ℕ) = m.major
          · simp [hi, hwx, hwo]
          · simp only [hi, decide_False, Bool.or_false]
            exact hAMO' i
        · intro i htie
          simp only [bitSet_iff_testBit, testBit_lor_shift] at htie
          simp only [Function.update_apply]
          by_cases hi : i = (⟨m.major, hmaj⟩ : Fin 9)
          · simp only [hi, if_pos rfl]
            exact hf
          · have hv : (i : ℕ) ≠ m.major := fun h => hi (Fin.ext h)
            simp only [hv, decide_False, Bool.or_false] at htie
            simp only [if_neg hi]
            exact hTF i ((bitSet_iff_testBit _ _).2 htie)
        · intro i hfull
          rw [settledAt_iff_testBit]
          simp only [Function.update_apply] at hfull
          simp only [testBit_lor_shift]
          by_cases hi : i = (⟨m.major, hmaj⟩ : Fin 9)
          · have hv : (i : ℕ) = m.major := by rw [hi]
            simp [hv]
          · rw [if_neg hi] at hfull
            have hold := hFS i hfull
            rw [settledAt_iff_testBit] at hold
            rcases hold with h | h | h
            · exact Or.inl h
            · exact Or.inr (Or.inl h)
            · exact Or.inr (Or.inr (by simp [h]))
        · by_cases hc :
              ((b.sub_wins.o ||| b.sub_wins.x) ||| (b.sub_wins.tie ||| 1 <<< m.major))
                &&& 1 <<< m.minor ≠ 0
          · rw [if_pos hc]
            exact ⟨show (9 : ℕ) ≤ 9 by omega, fun h => absurd (show (9 : ℕ) < 9 from h) (by omega)⟩
          · rw [if_neg hc]
            refine ⟨show m.minor ≤ 9 by omega, fun _ => ?_⟩
            rw [not_ne_iff, land_shift_eq_zero_iff] at hc
            rw [settledAt_iff_testBit]
            simp only [Nat.testBit_lor, Bool.or_eq_false_iff] at hc
            simp [hc.1.1, hc.1.2, hc.2.1, hc.2.2]
      · rw [if_neg hf]
        refine ⟨?_, ?_, ?_, ?_, ?_, ?_, ?_⟩
        · intro i
          simp only [Function.update_apply]
          by_cases hi : i = (⟨m.major, hmaj⟩ : Fin 9)
          · simp only [hi, if_pos rfl]
            exact land_lor_single_right (hCD _) hcx
          · simp only [if_neg hi]
            exact hCD i
        · intro i
          simp only [Function.update_apply]
          by_cases hi : i = (⟨m.major, hmaj⟩ : Fin 9)
          · simp only [hi, if_pos rfl]
            exact ⟨(hBB _).1, lor_lt_512 (hBB _).2 (shift_lt_512 hmin)⟩
          · simp only [if_neg hi]
            exact hBB i
        · exact hWB
        · exact hAMO
        · intro i htie
          simp only [Function.update_apply]
          by_cases hi : i = (⟨m.major, hmaj⟩ : Fin 9)
          · exfalso
            have hv : (i : ℕ) = m.major := by rw [hi]
            simp only [bitSet_iff_testBit, hv, hwt] at htie
            exact Bool.false_ne_true htie
          · simp only [if_neg hi]
            exact hTF i htie
        · intro i hfull
          simp only [Function.update_apply] at hfull
          by_cases hi : i = (⟨m.major, hmaj⟩ : Fin 9)
          · rw [if_pos hi] at hfull
            exact absurd hfull hf
          · rw [if_neg hi] at hfull
            exact hFS i hfull
        · by_cases hc :
              ((b.sub_wins.o ||| b.sub_wins.x) ||| b.sub_wins.tie) &&& 1 <<< m.minor ≠ 0
          · rw [if_pos hc]
            exact ⟨show (9 : ℕ) ≤ 9 by omega, fun h => absurd (show (9 : ℕ) < 9 from h) (by omega)⟩
          · rw [if_neg hc]
            refine ⟨show m.minor ≤ 9 by omega, fun _ => ?_⟩
            rw [not_ne_iff, land_shift_eq_zero_iff] at hc
            rw [settledAt_iff_testBit]
            simp only [Nat.testBit_lor, Bool.or_eq_false_iff] at hc
            simp [hc.1.1, hc.1.2, hc.2]

theorem land_of_lor_land {a b c : ℕ} (h : (a ||| b) &&& c = 0) :
    a &&& c = 0 ∧ b &&& c = 0 := by
  rw [land_eq_zero_iff_forall] at h
  constructor <;> rw [land_eq_zero_iff_forall] <;> intro i hi <;>
    refine h i ⟨?_, hi.2⟩ <;> rw [Nat.testBit_lor, hi.1] <;> simp

theorem bitSet_lor_left {w z i : ℕ} (h : bitSet w i) : bitSet (w ||| z) i :=
  (bitSet_lor w z i).2 (Or.inl h)

/-- A successful checked transition preserves the invariants. -/
theorem inv_step {b b' : Board} {m : Move} (hInv : Inv b)
    (h : b.advanceState m = some b') : Inv b' := by
  obtain ⟨h1, h2, h3, h4, rfl⟩ := advanceState_some_elim h
  unfold outOfRange at h1
  push_neg at h1
  have hmaj : m.major < 9 := by omega
  have hmin : m.minor < 9 := by omega
  rw [cellOccupied_iff b hmaj] at h2
  push_neg at h2
  unfold subBoardWon at h4
  push_neg at h4
  exact inv_unsafe b m hInv hmaj hmin
    ((land_shift_eq_zero_iff _ _).1 h2.1) ((land_shift_eq_zero_iff _ _).1 h2.2)
    ((land_shift_eq_zero_iff _ _).1 h4.1) ((land_shift_eq_zero_iff _ _).1 h4.2)

theorem inv_new : Inv Board.new := by decide

theorem reachable_inv {b : Board} (h : Reachable b) : Inv b := by
  induction h with
  | refl => exact inv_new
  | tail _ hbc ih =>
    obtain ⟨m, hm⟩ := hbc
    exact inv_step ih hm

/-- A successful checked transition never clears a WinBoard bit. -/
theorem subWins_monotone {b b' : Board} {m : Move}
    (h : b.advanceState m = some b') :
    ∀ i : ℕ,
      (bitSet b.sub_wins.x i → bitSet b'.sub_wins.x i) ∧
      (bitSet b.sub_wins.o i → bitSet b'.sub_wins.o i) ∧
      (bitSet b.sub_wins.tie i → bitSet b'.sub_wins.tie i) := by
  obtain ⟨h1, _, _, _, rfl⟩ := advanceState_some_elim h
  unfold outOfRange at h1
  push_neg at h1
  have hmaj : m.major < 9 := by omega
  unfold Board.advanceStateUnsafe
  rw [dif_pos hmaj]
  by_cases hp : b.player_to_move = Player.X
  · rw [if_pos hp]
    simp only [advanceBitfieldState]
    by_cases hw :
        hasWinner ((b.board ⟨m.major, hmaj⟩).x ||| 1 <<< m.minor) = HasWinner.Yes
    · rw [if_pos hw]
      exact fun i => ⟨fun hx => bitSet_lor_left hx, fun h => h, fun h => h⟩
    · rw [if_neg hw]
      by_cases hf :
          ((b.board ⟨m.major, hmaj⟩).x ||| 1 <<< m.minor) ||| (b.board ⟨m.major, hmaj⟩).o
            = 511
      · rw [if_pos hf]
        exact fun i => ⟨fun h => h, fun h => h, fun ht => bitSet_lor_left ht⟩
      · rw [if_neg hf]
        exact fun i => ⟨fun h => h, fun h => h, fun h => h⟩
  · rw [if_neg hp]
    simp only [advanceBitfieldState]
    by_cases hw :
        hasWinner ((b.board ⟨m.major, hmaj⟩).o ||| 1 <<< m.minor) = HasWinner.Yes
    · rw [if_pos hw]
      exact fun i => ⟨fun h => h, fun ho => bitSet_lor_left ho, fun h => h⟩
    · rw [if_neg hw]
      by_cases hf :
          (b.board ⟨m.major, hmaj⟩).x ||| ((b.board ⟨m.major, hmaj⟩).o ||| 1 <<< m.minor)
            = 511
      · rw [if_pos hf]
        exact fun i => ⟨fun h => h, fun h => h, fun ht => bitSet_lor_left ht⟩
      · rw [if_neg hf]
        exact fun i => ⟨fun h => h, fun h => h, fun h => h⟩

/-! ## Generated moves -/

theorem mem_generateMoves_forced (b : Board) (h : b.next_sub_board < 9) (m : Move) :
    m ∈ b.generateMoves ↔
      m.major = b.next_sub_board ∧ m.minor < 9 ∧
        ((b.board ⟨b.next_sub_board, h⟩).x ||| (b.board ⟨b.next_sub_board, h⟩).o)
          &&& (1 <<< m.minor) = 0 := by
  obtain ⟨ma, mi⟩ := m
  unfold Board.generateMoves
  rw [dif_pos h]
  simp only [List.mem_filterMap, List.mem_range]
  constructor
  · rintro ⟨i, hi, hif⟩
    rw [Option.ite_none_right_eq_some] at hif
    obtain ⟨hcond, heq⟩ := hif
    cases heq
    exact ⟨rfl, hi, hcond⟩
  · rintro ⟨hmaj, hmin, hfree⟩
    refine ⟨mi, hmin, ?_⟩
    rw [Option.ite_none_right_eq_some]
    exact ⟨hfree, by rw [hmaj]⟩

theorem mem_generateMoves_free (b : Board) (h9 : b.next_sub_board = 9) (m : Move) :
    m ∈ b.generateMoves ↔
      m.major < 9 ∧
      b.sub_wins.x &&& (1 <<< m.major) = 0 ∧ b.sub_wins.o &&& (1 <<< m.major) = 0 ∧
      b.sub_wins.tie &&& (1 <<< m.major) = 0 ∧ m.minor < 9 ∧
      ((subAt b m.major).x ||| (subAt b m.major).o) &&& (1 <<< m.minor) = 0 := by
  obtain ⟨ma, mi⟩ := m
  have hn : ¬(b.next_sub_board < 9) := by omega
  unfold Board.generateMoves
  rw [dif_neg hn, if_pos h9]
  simp only [List.mem_flatMap, List.mem_finRange, List.mem_filterMap, List.mem_range,
    true_and]
  constructor
  · rintro ⟨i, hmem⟩
    by_cases hcond : b.sub_wins.x &&& (1 <<< (i : ℕ)) = 0 ∧
        b.sub_wins.o &&& (1 <<< (i : ℕ)) = 0 ∧ b.sub_wins.tie &&& (1 <<< (i : ℕ)) = 0
    · rw [if_pos hcond] at hmem
      simp only [List.mem_filterMap, List.mem_range] at hmem
      obtain ⟨j, hj, hjf⟩ := hmem
      rw [Option.ite_none_right_eq_some] at hjf
      obtain ⟨hjc, heq⟩ := hjf
      cases heq
      refine ⟨i.isLt, hcond.1, hcond.2.1, hcond.2.2, hj, ?_⟩
      rw [subAt_eq b i.isLt, Fin.eta]
      exact hjc
    · rw [if_neg hcond] at hmem
      exact absurd hmem (List.not_mem_nil _)
  · rintro ⟨hlt, hx, ho, ht, hmin, hfree⟩
    refine ⟨⟨ma, hlt⟩, ?_⟩
    rw [if_pos ⟨hx, ho, ht⟩]
    simp only [List.mem_filterMap, List.mem_range]
    refine ⟨mi, hmin, ?_⟩
    rw [subAt_eq b hlt] at hfree
    rw [Option.ite_none_right_eq_some]
    exact ⟨hfree, rfl⟩

/-- Every generated move passes all four checks of the checked transition
on a board satisfying the invariants. -/
theorem advanceState_of_mem {b : Board} {m : Move} (hInv : Inv b)
    (hm : m ∈ b.generateMoves) :
    b.advanceState m = some (b.advanceStateUnsafe m) := by
  obtain ⟨hCD, hBB, hWB, hAMO, hTF, hFS, hNSB⟩ := hInv
  obtain ⟨hle, hforced⟩ := hNSB
  rcases Nat.lt_or_ge b.next_sub_board 9 with hlt | hge
  · rw [mem_generateMoves_forced b hlt] at hm
    obtain ⟨hmaj, hmin, hfree⟩ := hm
    have hmaj9 : m.major < 9 := by omega
    have hns := hforced hlt
    unfold settledAt bitSet at hns
    push_neg at hns
    apply advanceState_eq_some
    · unfold outOfRange
      omega
    · rw [cellOccupied_iff b hmaj9]
      push_neg
      have hfin : (⟨m.major, hmaj9⟩ : Fin 9) = ⟨b.next_sub_board, hlt⟩ := Fin.ext hmaj
      rw [hfin]
      exact land_of_lor_land hfree
    · unfold wrongSubBoard
      push_neg
      intro _
      omega
    · unfold subBoardWon
      push_neg
      constructor
      · rw [hmaj]
        exact hns.1
      · rw [hmaj]
        exact hns.2.1
  · have h9 : b.next_sub_board = 9 := by omega
    rw [mem_generateMoves_free b h9] at hm
    obtain ⟨hlt, hx, ho, ht, hmin, hfree⟩ := hm
    apply advanceState_eq_some
    · unfold outOfRange
      omega
    · rw [cellOccupied_iff b hlt]
      push_neg
      rw [subAt_eq b hlt] at hfree
      exact land_of_lor_land hfree
    · unfold wrongSubBoard
      push_neg
      intro hne
      exact absurd h9 hne
    · unfold subBoardWon
      push_neg
      exact ⟨hx, ho⟩

/-- An in-progress board satisfying the invariants has at least one legal
move. -/
theorem generateMoves_ne_nil {b : Board} (hInv : Inv b)
    (hw : b.winner = Winner.InProgress) : b.generateMoves ≠ [] := by
  obtain ⟨hCD, hBB, hWB, hAMO, hTF, hFS, hNSB⟩ := hInv
  obtain ⟨hle, hforced⟩ := hNSB
  have hor : b.sub_wins.x ||| b.sub_wins.o ||| b.sub_wins.tie ≠ 511 := by
    intro hc
    unfold Board.winner at hw
    split_ifs at hw
  rcases Nat.lt_or_ge b.next_sub_board 9 with hlt | hge
  · have hns := hforced hlt
    have hnf : (b.board ⟨b.next_sub_board, hlt⟩).x |||
        (b.board ⟨b.next_sub_board, hlt⟩).o ≠ 511 :=
      fun hc => hns (hFS ⟨b.next_sub_board, hlt⟩ hc)
    have hbound : (b.board ⟨b.next_sub_board, hlt⟩).x |||
        (b.board ⟨b.next_sub_board, hlt⟩).o < 512 :=
      lor_lt_512 (hBB _).1 (hBB _).2
    obtain ⟨j, hj, hjz⟩ := exists_free_bit _ hbound hnf
    intro hnil
    have hmem : (⟨b.next_sub_board, j⟩ : Move) ∈ b.generateMoves := by
      rw [mem_generateMoves_forced b hlt]
      exact ⟨rfl, hj, hjz⟩
    rw [hnil] at hmem
    exact absurd hmem (List.not_mem_nil _)
  · have h9 : b.next_sub_board = 9 := by omega
    have horb : b.sub_wins.x ||| b.sub_wins.o ||| b.sub_wins.tie < 512 :=
      lor_lt_512 (lor_lt_512 hWB.1 hWB.2.1) hWB.2.2
    obtain ⟨i, hi, hiz⟩ := exists_free_bit _ horb hor
    obtain ⟨hxz', htz⟩ := land_of_lor_land hiz
    obtain ⟨hxz, hoz⟩ := land_of_lor_land hxz'
    have hns : ¬settledAt b i := by
      unfold settledAt bitSet
      push_neg
      exact ⟨hxz, hoz, htz⟩
    have hnf : (b.board ⟨i, hi⟩).x ||| (b.board ⟨i, hi⟩).o ≠ 511 :=
      fun hc => hns (hFS ⟨i, hi⟩ hc)
    have hbound : (b.board ⟨i, hi⟩).x ||| (b.board ⟨i, hi⟩).o < 512 :=
      lor_lt_512 (hBB _).1 (hBB _).2
    obtain ⟨j, hj, hjz⟩ := exists_free_bit _ hbound hnf
    intro hnil
    have hmem : (⟨i, j⟩ : Move) ∈ b.generateMoves := by
      rw [mem_generateMoves_free b h9]
      refine ⟨hi, hxz, hoz, htz, hj, ?_⟩
      rw [subAt_eq b hi]
      exact hjz
    rw [hnil] at hmem
    exact absurd hmem (List.not_mem_nil _)

/-! ## The rollout termination measure -/

theorem emptyCount_le (sb : SubBoard) : emptyCount sb ≤ 9 := by
  unfold emptyCount
  have h := List.length_filter_le
    (fun j => (sb.x ||| sb.o) &&& (1 <<< j) == 0) (List.range 9)
  simpa using h

theorem countEmpty_le (b : Board) : countEmpty b ≤ 81 := by
  unfold countEmpty
  calc ∑ i : Fin 9, emptyCount (b.board i) ≤ ∑ _i : Fin 9, 9 :=
        Finset.sum_le_sum fun i _ => emptyCount_le (b.board i)
  _ = 81 := by simp

theorem filter_free_lt {v j : ℕ} (hj : j < 9) (hfree : v &&& (1 <<< j) = 0) :
    ((List.range 9).filter fun k => (v ||| (1 <<< j)) &&& (1 <<< k) == 0).length <
      ((List.range 9).filter fun k => v &&& (1 <<< k) == 0).length := by
  have himp : ∀ k, ((v ||| (1 <<< j)) &&& (1 <<< k) == 0) = true →
      (v &&& (1 <<< k) == 0) = true := by
    intro k hk
    rw [beq_iff_eq] at hk ⊢
    exact (land_of_lor_land hk).1
  have hsub : (List.range 9).filter (fun k => (v ||| (1 <<< j)) &&& (1 <<< k) == 0) =
      ((List.range 9).filter fun k => v &&& (1 <<< k) == 0).filter
        fun k => (v ||| (1 <<< j)) &&& (1 <<< k) == 0 := by
    rw [List.filter_filter]
    apply List.filter_congr
    intro k _
    cases hk : ((v ||| 1 <<< j) &&& (1 <<< k) == 0)
    · simp [hk]
    · simp [hk, himp k hk]
  rw [hsub]
  have hjin : j ∈ (List.range 9).filter fun k => v &&& (1 <<< k) == 0 := by
    rw [List.mem_filter, List.mem_range]
    exact ⟨hj, by rw [beq_iff_eq]; exact hfree⟩
  have hjfail : ((v ||| (1 <<< j)) &&& (1 <<< j) == 0) = false := by
    have hb : bitSet (v ||| (1 <<< j)) j :=
      (bitSet_lor v (1 <<< j) j).2 (Or.inr ((bitSet_shift j j).2 rfl))
    unfold bitSet at hb
    simpa using hb
  apply Nat.lt_of_le_of_ne (List.length_filter_le _ _)
  intro heq
  have hall := List.filter_length_eq_length.1 heq j hjin
  rw [hjfail] at hall
  exact Bool.false_ne_true hall

theorem sum_update_lt {f : Fin 9 → SubBoard} {idx : Fin 9} {sb' : SubBoard}
    (h : emptyCount sb' < emptyCount (f idx)) :
    ∑ i : Fin 9, emptyCount (Function.update f idx sb' i) <
      ∑ i : Fin 9, emptyCount (f i) := by
  rw [← Finset.add_sum_erase Finset.univ (fun i => emptyCount (Function.update f idx sb' i))
    (Finset.mem_univ idx)]
  rw [← Finset.add_sum_erase Finset.univ (fun i => emptyCount (f i)) (Finset.mem_univ idx)]
  have hrest : ∑ i ∈ Finset.univ.erase idx, emptyCount (Function.update f idx sb' i) =
      ∑ i ∈ Finset.univ.erase idx, emptyCount (f i) :=
    Finset.sum_congr rfl fun i hi => by
      rw [Function.update_noteq (Finset.ne_of_mem_erase hi)]
  rw [hrest, Function.update_same]
  exact Nat.add_lt_add_right h _

/-- Applying the unchecked transition to a generated move strictly
decreases the number of empty cells. -/
theorem countEmpty_advance_of_mem {b : Board} {m : Move} (hInv : Inv b)
    (hm : m ∈ b.generateMoves) :
    countEmpty (b.advanceStateUnsafe m) < countEmpty b := by
  obtain ⟨hmaj, hmin, hfree⟩ : ∃ h : m.major < 9, m.minor < 9 ∧
      ((b.board ⟨m.major, h⟩).x ||| (b.board ⟨m.major, h⟩).o) &&& (1 <<< m.minor) = 0 := by
    rcases Nat.lt_or_ge b.next_sub_board 9 with hlt | hge
    · rw [mem_generateMoves_forced b hlt] at hm
      obtain ⟨hmaj, hmin, hfree⟩ := hm
      have h9 : m.major < 9 := by omega
      refine ⟨h9, hmin, ?_⟩
      rw [show (⟨m.major, h9⟩ : Fin 9) = ⟨b.next_sub_board, hlt⟩ from Fin.ext hmaj]
      exact hfree
    · have hle : b.next_sub_board ≤ 9 := hInv.2.2.2.2.2.2.1
      have h9 : b.next_sub_board = 9 := by omega
      rw [mem_generateMoves_free b h9] at hm
      obtain ⟨hlt', _, _, _, hmin, hfree⟩ := hm
      refine ⟨hlt', hmin, ?_⟩
      rw [← subAt_eq b hlt']
      exact hfree
  unfold Board.advanceStateUnsafe
  rw [dif_pos hmaj]
  by_cases hp : b.player_to_move = Player.X
  · rw [if_pos hp]
    simp only [advanceBitfieldState]
    unfold countEmpty
    apply sum_update_lt
    unfold emptyCount
    have hco : ((b.board ⟨m.major, hmaj⟩).x ||| 1 <<< m.minor) |||
        (b.board ⟨m.major, hmaj⟩).o =
        ((b.board ⟨m.major, hmaj⟩).x ||| (b.board ⟨m.major, hmaj⟩).o) ||| 1 <<< m.minor := by
      rw [Nat.lor_assoc, Nat.lor_comm (1 <<< m.minor), ← Nat.lor_assoc]
    simp only [hco]
    exact filter_free_lt hmin hfree
  · rw [if_neg hp]
    simp only [advanceBitfieldState]
    unfold countEmpty
    apply sum_update_lt
    unfold emptyCount
    have hco : (b.board ⟨m.major, hmaj⟩).x |||
        ((b.board ⟨m.major, hmaj⟩).o ||| 1 <<< m.minor) =
        ((b.board ⟨m.major, hmaj⟩).x ||| (b.board ⟨m.major, hmaj⟩).o) ||| 1 <<< m.minor :=
      (Nat.lor_assoc _ _ _).symm
    simp only [hco]
    exact filter_free_lt hmin hfree

/-- With enough fuel, a rollout from an invariant-satisfying board always
returns a decided winner. -/
theorem rolloutAux_ok : ∀ (fuel : ℕ) (b : Board), Inv b → countEmpty b < fuel →
    ∀ (choice : ℕ → ℕ) (step : ℕ),
      ∃ w, rolloutAux choice fuel step b = some w ∧ w ≠ Winner.InProgress := by
  intro fuel
  induction fuel with
  | zero =>
    intro b _ h
    omega
  | succ n ih =>
    intro b hInv hfuel choice step
    by_cases hw : b.winner = Winner.InProgress
    · have hne := generateMoves_ne_nil hInv hw
      have hlen : 0 < b.generateMoves.length := List.length_pos.2 hne
      have hidx : choice step % b.generateMoves.length < b.generateMoves.length :=
        Nat.mod_lt _ hlen
      have hmem : b.generateMoves.getD (choice step % b.generateMoves.length) ⟨0, 0⟩ ∈
          b.generateMoves := by
        rw [List.getD_eq_getElem b.generateMoves _ hidx]
        exact List.getElem_mem hidx
      have hadv := advanceState_of_mem hInv hmem
      have hInv' := inv_step hInv hadv
      have hdec := countEmpty_advance_of_mem hInv hmem
      obtain ⟨w, hrw, hwne⟩ := ih _ hInv' (by omega) choice (step + 1)
      refine ⟨w, ?_, hwne⟩
      simp only [rolloutAux]
      rw [if_pos hw, if_neg hne]
      exact hrw
    · refine ⟨b.winner, ?_, hw⟩
      simp only [rolloutAux]
      rw [if_neg hw]

/-! ## Winner characterization -/

theorem hasWinner_yes_iff (v : ℕ) : hasWinner v = HasWinner.Yes ↔ lineWin v := by
  unfold hasWinner lineWin
  by_cases h : winConfigurations.any fun c => v &&& c == c
  · rw [if_pos h]
    simp only [List.any_eq_true, beq_iff_eq] at h
    exact iff_of_true rfl h
  · rw [if_neg h]
    simp only [List.any_eq_true, beq_iff_eq] at h
    split_ifs <;> exact iff_of_false (by simp) h

theorem winner_X_of_line {b : Board} (hx : lineWin b.sub_wins.x) :
    b.winner = Winner.X := by
  unfold Board.winner
  rw [if_pos ((hasWinner_yes_iff _).2 hx)]

theorem winner_O_of_line {b : Board} (hnx : ¬lineWin b.sub_wins.x)
    (ho : lineWin b.sub_wins.o) : b.winner = Winner.O := by
  unfold Board.winner
  rw [if_neg fun hc => hnx ((hasWinner_yes_iff _).1 hc),
    if_pos ((hasWinner_yes_iff _).2 ho)]

theorem winner_tie_iff (b : Board) :
    b.winner = Winner.Tie ↔
      ¬lineWin b.sub_wins.x ∧ ¬lineWin b.sub_wins.o ∧
        b.sub_wins.x ||| b.sub_wins.o ||| b.sub_wins.tie = 511 := by
  unfold Board.winner
  split_ifs with h1 h2 h3
  · exact iff_of_false (by simp) fun hc => hc.1 ((hasWinner_yes_iff _).1 h1)
  · exact iff_of_false (by simp) fun hc => hc.2.1 ((hasWinner_yes_iff _).1 h2)
  · exact iff_of_true rfl
      ⟨fun hc => h1 ((hasWinner_yes_iff _).2 hc),
       fun hc => h2 ((hasWinner_yes_iff _).2 hc), h3⟩
  · exact iff_of_false (by simp) fun hc => h3 hc.2.2

theorem settledAt_iff_lor (b : Board) (i : ℕ) :
    settledAt b i ↔ bitSet (b.sub_wins.x ||| b.sub_wins.o ||| b.sub_wins.tie) i := by
  unfold settledAt
  rw [bitSet_lor, bitSet_lor]
  tauto

/-- On a well-formed WinBoard, every index below 9 settled is the same as
the three masks union being exactly 511. -/
theorem all_settled_iff {b : Board} (hwb : WinsBounded b) :
    (∀ i < 9, settledAt b i) ↔
      b.sub_wins.x ||| b.sub_wins.o ||| b.sub_wins.tie = 511 := by
  have hb : b.sub_wins.x ||| b.sub_wins.o ||| b.sub_wins.tie < 512 :=
    lor_lt_512 (lor_lt_512 hwb.1 hwb.2.1) hwb.2.2
  have hcov := covers_iff_511 _ hb
  rw [← hcov]
  constructor
  · intro h i hi
    have := (settledAt_iff_lor b i).1 (h i hi)
    exact this
  · intro h i hi
    exact (settledAt_iff_lor b i).2 (h i hi)

/-! ## Engine lemmas -/

/-- Full characterization of the selection fold: either nothing ever beats
the running score and the accumulator is returned unchanged, or the result
is the first-seen strict maximum of the list. -/
theorem selectGo_spec (l : List ChildStat) : ∀ (b : Option ChildStat) (s : ℝ),
    (selectGo l b s = b ∧ ∀ d ∈ l, uct d ≤ s) ∨
    (∃ l₁ c l₂, l = l₁ ++ c :: l₂ ∧ selectGo l b s = some c ∧ s < uct c ∧
      (∀ d ∈ l₁, uct d < uct c) ∧ ∀ d ∈ l₂, uct d ≤ uct c) := by
  induction l with
  | nil =>
    intro b s
    left
    exact ⟨rfl, by simp⟩
  | cons c cs ih =>
    intro b s
    by_cases hc : uct c > s
    · rcases ih (some c) (uct c) with ⟨heq, hall⟩ | ⟨l₁, out, l₂, hsplit, heq, hgt, hl₁, hl₂⟩
      · right
        refine ⟨[], c, cs, rfl, ?_, hc, by simp, hall⟩
        simp only [selectGo]
        rw [if_pos hc]
        exact heq
      · right
        refine ⟨c :: l₁, out, l₂, by rw [hsplit]; rfl, ?_, lt_trans hc hgt, ?_, hl₂⟩
        · simp only [selectGo]
          rw [if_pos hc]
          exact heq
        · intro d hd
          rcases List.mem_cons.1 hd with rfl | hd'
          · exact hgt
          · exact hl₁ d hd'
    · rcases ih b s with ⟨heq, hall⟩ | ⟨l₁, out, l₂, hsplit, heq, hgt, hl₁, hl₂⟩
      · left
        refine ⟨?_, ?_⟩
        · simp only [selectGo]
          rw [if_neg hc]
          exact heq
        · intro d hd
          rcases List.mem_cons.1 hd with rfl | hd'
          · exact le_of_not_lt hc
          · exact hall d hd'
      · right
        refine ⟨c :: l₁, out, l₂, by rw [hsplit]; rfl, ?_, hgt, ?_, hl₂⟩
        · simp only [selectGo]
          rw [if_neg hc]
          exact heq
        · intro d hd
          rcases List.mem_cons.1 hd with rfl | hd'
          · exact lt_of_le_of_lt (le_of_not_lt hc) hgt
          · exact hl₁ d hd'

/-- The program's UCT score is strictly positive whenever the win
accumulator is non-negative: the exploration term 2·sqrt 2/(visits+1) is
positive for every visit count. -/
theorem uct_pos {c : ChildStat} (h : 0 ≤ c.wins) : 0 < uct c := by
  simp only [uct]
  have hn : (0 : ℝ) < (c.visits : ℝ) + 1 := by positivity
  apply add_pos_of_nonneg_of_pos
  · apply div_nonneg _ (le_of_lt hn)
    exact_mod_cast h
  · apply div_pos _ hn
    rw [one_mul]
    exact mul_pos (by norm_num) (Real.sqrt_pos.2 (by norm_num))

theorem maxStep_go (l : List EngChild) : ∀ a : EngChild,
    ∃ c, List.foldl maxStep (some a) l = some c ∧ (c = a ∨ c ∈ l) ∧
      a.visits ≤ c.visits ∧ ∀ d ∈ l, d.visits ≤ c.visits := by
  induction l with
  | nil =>
    intro a
    exact ⟨a, rfl, Or.inl rfl, le_refl _, by simp⟩
  | cons x xs ih =>
    intro a
    by_cases hx : a.visits ≤ x.visits
    · have hstep : maxStep (some a) x = some x := by simp [maxStep, hx]
      obtain ⟨c, hc, hmem, hle, hall⟩ := ih x
      refine ⟨c, ?_, ?_, le_trans hx hle, ?_⟩
      · rw [List.foldl_cons, hstep]
        exact hc
      · rcases hmem with rfl | h'
        · exact Or.inr (List.mem_cons_self _ _)
        · exact Or.inr (List.mem_cons_of_mem _ h')
      · intro d hd
        rcases List.mem_cons.1 hd with rfl | hd'
        · exact hle
        · exact hall d hd'
    · have hstep : maxStep (some a) x = some a := by simp [maxStep, hx]
      obtain ⟨c, hc, hmem, hle, hall⟩ := ih a
      refine ⟨c, ?_, ?_, hle, ?_⟩
      · rw [List.foldl_cons, hstep]
        exact hc
      · rcases hmem with rfl | h'
        · exact Or.inl rfl
        · exact Or.inr (List.mem_cons_of_mem _ h')
      · intro d hd
        rcases List.mem_cons.1 hd with rfl | hd'
        · omega
        · exact hall d hd'

/-- max_by_key on visit counts returns a member attaining the maximum. -/
theorem maxByVisits_spec {l : List EngChild} (h : l ≠ []) :
    ∃ c ∈ l, maxByVisits l = some c ∧ ∀ d ∈ l, d.visits ≤ c.visits := by
  cases l with
  | nil => exact absurd rfl h
  | cons x xs =>
    unfold maxByVisits
    rw [List.foldl_cons]
    have hstep : maxStep none x = some x := rfl
    rw [hstep]
    obtain ⟨c, hc, hmem, hle, hall⟩ := maxStep_go xs x
    refine ⟨c, ?_, hc, ?_⟩
    · rcases hmem with rfl | h'
      · exact List.mem_cons_self _ _
      · exact List.mem_cons_of_mem _ h'
    · intro d hd
      rcases List.mem_cons.1 hd with rfl | hd'
      · exact hle
      · exact hall d hd'

/-! ## Claim theorems -/

/-- C1 (code bug, evaluation at the failing input): back-propagating
outcome X along the two-node path [origin with X to move, root with O to
move] leaves the root's win accumulator at 0 and pushes the root's +1
increment onto the origin instead; the specified behaviour gives the root
its own +1 and leaves the origin's accumulator at 0.  Visit counters agree
with the specification. -/
theorem c1_backprop_eval :
    backPropagate Winner.X [⟨Player.X, 0, 0⟩, ⟨Player.O, 0, 0⟩] =
      [⟨Player.X, 1, 1⟩, ⟨Player.O, 0, 1⟩] ∧
    backPropagateSpec Winner.X [⟨Player.X, 0, 0⟩, ⟨Player.O, 0, 0⟩] =
      [⟨Player.X, 0, 1⟩, ⟨Player.O, 1, 1⟩] ∧
    backPropagate Winner.X [⟨Player.X, 0, 0⟩, ⟨Player.O, 0, 0⟩] ≠
      backPropagateSpec Winner.X [⟨Player.X, 0, 0⟩, ⟨Player.O, 0, 0⟩] := by
  have h1 : backPropagate Winner.X [⟨Player.X, 0, 0⟩, ⟨Player.O, 0, 0⟩] =
      [⟨Player.X, 1, 1⟩, ⟨Player.O, 0, 1⟩] := by
    simp [backPropagate, backPropGo]
  have h2 : backPropagateSpec Winner.X [⟨Player.X, 0, 0⟩, ⟨Player.O, 0, 0⟩] =
      [⟨Player.X, 0, 1⟩, ⟨Player.O, 1, 1⟩] := by
    simp [backPropagateSpec, winIncrement]
  refine ⟨h1, h2, ?_⟩
  rw [h1, h2]
  simp

/-- C2 (counterexample): on the concrete children A = (wins 0, visits 1)
and B = (wins 1, visits 2) with parent visit count 1, the program selects
A while selection under the claimed UCB1 scoring selects B, so
select_best_child_uct does not score children by
wins/visits + sqrt 2 * sqrt (ln self.visits / visits). -/
theorem c2_counterexample :
    selectBestChildUct [⟨0, 1⟩, ⟨1, 2⟩] ≠ selectSpec 1 [⟨0, 1⟩, ⟨1, 2⟩] := by
  have hA : uct ⟨0, 1⟩ = Real.sqrt 2 := by
    simp only [uct]
    push_cast
    ring_nf
  have hB : uct ⟨1, 2⟩ = 1 / 3 + 2 * Real.sqrt 2 / 3 := by
    simp only [uct]
    push_cast
    ring_nf
  have h1 : (1 : ℝ) ≤ Real.sqrt 2 := by
    rw [show (1 : ℝ) = Real.sqrt 1 from Real.sqrt_one.symm]
    exact Real.sqrt_le_sqrt (by norm_num)
  have hAB : ¬(uct ⟨1, 2⟩ > uct ⟨0, 1⟩) := by
    rw [hA, hB, not_lt]
    linarith
  have hApos : uct ⟨0, 1⟩ > 0 := by
    rw [hA]
    exact Real.sqrt_pos.2 (by norm_num)
  have hcode : selectBestChildUct [⟨0, 1⟩, ⟨1, 2⟩] = some ⟨0, 1⟩ := by
    unfold selectBestChildUct
    simp only [selectGo]
    rw [if_pos hApos, if_neg hAB]
  have hsA : uctSpecFormula 1 ⟨0, 1⟩ = 0 := by
    simp [uctSpecFormula, Real.log_one]
  have hsB : uctSpecFormula 1 ⟨1, 2⟩ = 1 / 2 := by
    simp [uctSpecFormula, Real.log_one]
  have hspec : selectSpec 1 [⟨0, 1⟩, ⟨1, 2⟩] = some ⟨1, 2⟩ := by
    simp only [selectSpec]
    rw [if_pos (by rw [hsA, hsB]; norm_num)]
  rw [hcode, hspec]
  intro hcon
  have := Option.some_injective _ hcon
  rw [ChildStat.mk.injEq] at this
  norm_num at this

/-- C2 (amended): select_best_child_uct scores every expanded child by
wins/(visits+1) + 2·sqrt 2/(visits+1) — the parent's visit count is not
used — returns the first-seen child attaining the strictly greatest score
(on children with non-negative win accumulators every score beats the
zero-initialised running best), and returns none when there are no
expanded children. -/
theorem c2_select_amended :
    (∀ c : ChildStat, uct c =
      (c.wins : ℝ) / ((c.visits : ℝ) + 1) + 2 * Real.sqrt 2 / ((c.visits : ℝ) + 1)) ∧
    selectBestChildUct [] = none ∧
    ∀ l : List ChildStat, l ≠ [] → (∀ c ∈ l, 0 ≤ c.wins) →
      ∃ l₁ c l₂, l = l₁ ++ c :: l₂ ∧ selectBestChildUct l = some c ∧
        (∀ d ∈ l₁, uct d < uct c) ∧ ∀ d ∈ l₂, uct d ≤ uct c := by
  refine ⟨?_, rfl, ?_⟩
  · intro c
    simp only [uct]
    ring
  · intro l hne hw
    rcases selectGo_spec l none 0 with ⟨_, hall⟩ | ⟨l₁, c, l₂, hsplit, heq, _, hl₁, hl₂⟩
    · obtain ⟨c, hc⟩ := List.exists_mem_of_ne_nil l hne
      have hle := hall c hc
      have hpos := uct_pos (hw c hc)
      linarith
    · exact ⟨l₁, c, l₂, hsplit, heq, hl₁, hl₂⟩

/-- C2 witness: the amended selection property at a concrete two-child
list. -/
theorem c2_select_amended_witness :
    ∃ l₁ c l₂, ([⟨1, 3⟩, ⟨0, 1⟩] : List ChildStat) = l₁ ++ c :: l₂ ∧
      selectBestChildUct [⟨1, 3⟩, ⟨0, 1⟩] = some c ∧
      (∀ d ∈ l₁, uct d < uct c) ∧ ∀ d ∈ l₂, uct d ≤ uct c :=
  c2_select_amended.2.2 [⟨1, 3⟩, ⟨0, 1⟩] (by simp)
    (by intro c hc
        simp only [List.mem_cons, List.not_mem_nil, or_false] at hc
        rcases hc with rfl | rfl <;> norm_num)

/-- C3 (counterexample): a board whose sub-board 0 carries the tie
settlement bit while its cells are empty; the checked advance_state
accepts the move (0,0) into that settled sub-board instead of returning
the claimed absent result, because the fourth check consults only the X
and O win masks. -/
theorem c3_counterexample :
    bitSet tieMarkedBoard.sub_wins.tie 0 ∧
      tieMarkedBoard.advanceState ⟨0, 0⟩ ≠ none := by
  decide

/-- C3 (amended): the checked advance_state validates, in order, index
range, target cell emptiness, the forced-sub-board constraint, and that
the target sub-board was not already won by X or by O (the tie bit is not
consulted); it returns none exactly when one of these four conditions is
violated and otherwise the unchecked transition's result.  The original
board value is untouched — the embedding is a pure function of the
board. -/
theorem c3_advance_checks (b : Board) (m : Move) :
    (b.advanceState m = none ↔
      outOfRange m ∨ cellOccupied b m ∨ wrongSubBoard b m ∨ subBoardWon b m) ∧
    (¬(outOfRange m ∨ cellOccupied b m ∨ wrongSubBoard b m ∨ subBoardWon b m) →
      b.advanceState m = some (b.advanceStateUnsafe m)) := by
  refine ⟨advanceState_eq_none_iff b m, fun h => ?_⟩
  push_neg at h
  exact advanceState_eq_some b m h.1 h.2.1 h.2.2.1 h.2.2.2

/-- C3 witness: on the initial board the move (4,4) violates no check and
advances. -/
theorem c3_advance_checks_witness :
    Board.new.advanceState ⟨4, 4⟩ = some (Board.new.advanceStateUnsafe ⟨4, 4⟩) :=
  (c3_advance_checks Board.new ⟨4, 4⟩).2 (by decide)

/-- C4: on every board reachable from the initial board by successful
checked transitions, every generated move is accepted by the checked
advance_state. -/
theorem c4_generated_moves_valid :
    ∀ b : Board, Reachable b → ∀ m ∈ b.generateMoves, (b.advanceState m).isSome := by
  intro b hr m hm
  rw [advanceState_of_mem (reachable_inv hr) hm]
  rfl

/-- C4 witness: the generated move (0,0) of the initial board is
accepted. -/
theorem c4_witness : (Board.new.advanceState ⟨0, 0⟩).isSome :=
  c4_generated_moves_valid Board.new Relation.ReflTransGen.refl ⟨0, 0⟩ (by decide)

/-- C5: every reachable board satisfies the claimed invariants —
disjoint player masks in every sub-board, at most one settlement bit per
sub-board index, and a next_sub_board pointer in 0..=9 that, when forcing,
points at an unsettled sub-board — and every successful checked transition
from it preserves them and never clears a settlement bit. -/
theorem c5_invariants :
    ∀ b : Board, Reachable b →
      (CellsDisjoint b ∧ AtMostOneOutcome b ∧ NsbGood b) ∧
      ∀ m b', b.advanceState m = some b' →
        (CellsDisjoint b' ∧ AtMostOneOutcome b' ∧ NsbGood b') ∧
        ∀ i : ℕ,
          (bitSet b.sub_wins.x i → bitSet b'.sub_wins.x i) ∧
          (bitSet b.sub_wins.o i → bitSet b'.sub_wins.o i) ∧
          (bitSet b.sub_wins.tie i → bitSet b'.sub_wins.tie i) := by
  intro b hr
  have hInv := reachable_inv hr
  refine ⟨⟨hInv.1, hInv.2.2.2.1, hInv.2.2.2.2.2.2⟩, ?_⟩
  intro m b' hs
  have hInv' := inv_step hInv hs
  exact ⟨⟨hInv'.1, hInv'.2.2.2.1, hInv'.2.2.2.2.2.2⟩, subWins_monotone hs⟩

/-- C5 witness: the invariants at the initial board. -/
theorem c5_invariants_witness :
    CellsDisjoint Board.new ∧ AtMostOneOutcome Board.new ∧ NsbGood Board.new :=
  (c5_invariants Board.new Relation.ReflTransGen.refl).1

/-- C6 (code bug, evaluation at the failing input): over a schedule of two
completed loop passes — the first reaching a fully expanded frontier node,
the second expanding — run_search's counter reports 1, not 2: the
fully-expanded branch continues before the increment, so completed
iterations of that kind are never counted (and the function returns only
this single integer, no ply count). -/
theorem c6_iteration_count :
    runSearchIterCount [true, false] = 1 ∧ ([true, false] : List Bool).length = 2 := by
  exact ⟨rfl, rfl⟩

/-- C7: for every board with a well-formed WinBoard, winner() is Tie
exactly when all 9 sub-board indices are settled and neither player's
settlement mask matches one of the 8 line patterns; a line for X gives
winner X, and a line for O with no line for X gives winner O. -/
theorem c7_winner_characterization (b : Board) (hwb : WinsBounded b) :
    (b.winner = Winner.Tie ↔
      (∀ i < 9, settledAt b i) ∧ ¬lineWin b.sub_wins.x ∧ ¬lineWin b.sub_wins.o) ∧
    (lineWin b.sub_wins.x → b.winner = Winner.X) ∧
    (¬lineWin b.sub_wins.x → lineWin b.sub_wins.o → b.winner = Winner.O) := by
  refine ⟨?_, winner_X_of_line, winner_O_of_line⟩
  rw [winner_tie_iff, ← all_settled_iff hwb]
  tauto

/-- C7 witness: the characterization at the initial board. -/
theorem c7_winner_witness :
    (Board.new.winner = Winner.Tie ↔
      (∀ i < 9, settledAt Board.new i) ∧ ¬lineWin Board.new.sub_wins.x ∧
        ¬lineWin Board.new.sub_wins.o) ∧
    (lineWin Board.new.sub_wins.x → Board.new.winner = Winner.X) ∧
    (¬lineWin Board.new.sub_wins.x → lineWin Board.new.sub_wins.o →
      Board.new.winner = Winner.O) :=
  c7_winner_characterization Board.new (by decide)

/-- C8: on every reachable board, if winner() is InProgress then
generate_moves() is non-empty, and a rollout with fuel 82 (more than the
81 cells of the board) driven by any random choice sequence terminates
with a decided winner, never InProgress. -/
theorem c8_progress_and_rollout :
    ∀ b : Board, Reachable b →
      (b.winner = Winner.InProgress → b.generateMoves ≠ []) ∧
      ∀ (choice : ℕ → ℕ) (step : ℕ),
        ∃ w, rolloutAux choice 82 step b = some w ∧ w ≠ Winner.InProgress := by
  intro b hr
  have hInv := reachable_inv hr
  refine ⟨generateMoves_ne_nil hInv, ?_⟩
  intro choice step
  have hle := countEmpty_le b
  exact rolloutAux_ok 82 b hInv (by omega) choice step

/-- C8 witness: a rollout from the initial board with the all-zero choice
sequence reaches a decided winner. -/
theorem c8_witness :
    ∃ w, rolloutAux (fun _ => 0) 82 0 Board.new = some w ∧ w ≠ Winner.InProgress :=
  (c8_progress_and_rollout Board.new Relation.ReflTransGen.refl).2 (fun _ => 0) 0

/-- C9: best_move fails (modelled as none) on an uninitialized engine and
on a root with no expanded children; on a non-empty children list whose
entries carry their originating moves it returns the originating move of a
child with the maximal visit count. -/
theorem c9_best_move :
    bestMove none = none ∧
    (∀ r : RootNode, r.expanded = [] → bestMove (some r) = none) ∧
    ∀ r : RootNode, r.expanded ≠ [] → (∀ c ∈ r.expanded, c.previousMove.isSome) →
      ∃ c ∈ r.expanded, bestMove (some r) = c.previousMove ∧
        ∀ d ∈ r.expanded, d.visits ≤ c.visits := by
  refine ⟨rfl, ?_, ?_⟩
  · intro r hr
    show ((maxByVisits r.expanded).bind fun c => c.previousMove) = none
    rw [hr]
    rfl
  · intro r hne _
    obtain ⟨c, hc, hmax, hall⟩ := maxByVisits_spec hne
    refine ⟨c, hc, ?_, hall⟩
    show ((maxByVisits r.expanded).bind fun c => c.previousMove) = c.previousMove
    rw [hmax]
    rfl

/-- C9 witness: on a root with two children carrying 5 and 2 visits, the
child with 5 visits is returned. -/
theorem c9_witness :
    ∃ c ∈ (RootNode.mk [⟨some ⟨1, 2⟩, 5⟩, ⟨some ⟨3, 4⟩, 2⟩]).expanded,
      bestMove (some (RootNode.mk [⟨some ⟨1, 2⟩, 5⟩, ⟨some ⟨3, 4⟩, 2⟩])) =
        c.previousMove ∧
      ∀ d ∈ (RootNode.mk [⟨some ⟨1, 2⟩, 5⟩, ⟨some ⟨3, 4⟩, 2⟩]).expanded,
        d.visits ≤ c.visits :=
  c9_best_move.2.2 (RootNode.mk [⟨some ⟨1, 2⟩, 5⟩, ⟨some ⟨3, 4⟩, 2⟩]) (by simp)
    (by intro c hc
        simp only [List.mem_cons, List.not_mem_nil, or_false] at hc
        rcases hc with rfl | rfl <;> rfl)

/-- C10: select_best_child_uct returns some child whenever the expanded
children list is non-empty and the win accumulators are non-negative:
every score is strictly positive, so the zero-initialised running best
never rejects all children. -/
theorem c10_select_some :
    ∀ l : List ChildStat, l ≠ [] → (∀ c ∈ l, 0 ≤ c.wins) →
      (selectBestChildUct l).isSome := by
  intro l hne hw
  rcases selectGo_spec l none 0 with ⟨_, hall⟩ | ⟨l₁, c, l₂, _, heq, _, _, _⟩
  · obtain ⟨c, hc⟩ := List.exists_mem_of_ne_nil l hne
    have hle := hall c hc
    have hpos := uct_pos (hw c hc)
    linarith
  · unfold selectBestChildUct
    rw [heq]
    rfl

/-- C10 witness: a singleton child list yields a selection. -/
theorem c10_witness : (selectBestChildUct [⟨0, 0⟩]).isSome :=
  c10_select_some [⟨0, 0⟩] (by simp)
    (by intro c hc
        rcases List.mem_singleton.1 hc with rfl
        norm_num)

end Uttt

